import Mathlib

/-!
Verification of the numerical core of the `So_Much_Potential` notebook:
cubic-spline interpolation of a diatomic potential energy surface,
derived force and curvature fields, equilibrium extraction, and
velocity-Verlet integration, validated against an analytic harmonic
oscillator.

Numbers are modelled by exact rationals (`ℚ`) wherever the computation is
algebraic, and by `ℝ` where transcendental functions (`sin`, `sqrt`, `π`)
occur.  Floating-point rounding is outside the scope of the claims, which
are about the algebraic structure of the computations.
-/

namespace SoMuchPotential

/-- Velocity-Verlet step.

Modelled from the spec: the body of `velocity_verlet` in the notebook is a
fill-in placeholder (only `!!!` comments and the final
`return r_new, v_new`), so the four update lines are taken verbatim from
spec §4.4:
1. `a_curr = forceField.evaluate(r_curr) / μ`
2. `r_new = r_curr + v_curr·dt + 0.5·a_curr·dt²`
3. `a_new = forceField.evaluate(r_new) / μ`
4. `v_new = v_curr + 0.5·(a_curr + a_new)·dt`
The `let` chain reproduces the evaluation order: `a_curr` is computed from
`r_curr` first, `r_new` from it, `a_new` at `r_new`, and `v_new` from both
accelerations. -/
def velocity_verlet (r_curr v_curr mu : ℚ) (force : ℚ → ℚ) (dt : ℚ) : ℚ × ℚ :=
  let a_curr := force r_curr / mu
  let r_new := r_curr + v_curr * dt + 1/2 * a_curr * dt^2
  let a_new := force r_new / mu
  let v_new := v_curr + 1/2 * (a_curr + a_new) * dt
  (r_new, v_new)

/-- A polynomial in one variable, as its little-endian coefficient list:
`[c0, c1, c2, c3]` stands for `c0 + c1·x + c2·x² + c3·x³`. -/
def evalP : List ℚ → ℚ → ℚ
  | [], _ => 0
  | c :: cs, x => c + x * evalP cs x

/-- Helper for exact polynomial differentiation: `derivPAux cs k` maps the
coefficient of degree `k + i` (stored at position `i` of `cs`) to
`(k + i)·c`. -/
def derivPAux : List ℚ → ℕ → List ℚ
  | [], _ => []
  | c :: cs, k => (k : ℚ) * c :: derivPAux cs (k + 1)

/-- Exact derivative of a little-endian coefficient list:
`[c0, c1, c2, c3] ↦ [c1, 2·c2, 3·c3]`. -/
def derivP (p : List ℚ) : List ℚ := derivPAux (p.drop 1) 1

/-- Coefficients of the unique cubic through the four points
`(x0, y0) … (x3, y3)` (Lagrange form, expanded into monomial
coefficients).  Each coefficient is a linear combination of the `y`s with
weights depending only on the nodes. -/
def lagrangeCubic (x0 x1 x2 x3 y0 y1 y2 y3 : ℚ) : List ℚ :=
  [-(y0 * (x1 * x2 * x3) / ((x0 - x1) * (x0 - x2) * (x0 - x3)) +
      y1 * (x0 * x2 * x3) / ((x1 - x0) * (x1 - x2) * (x1 - x3)) +
      y2 * (x0 * x1 * x3) / ((x2 - x0) * (x2 - x1) * (x2 - x3)) +
      y3 * (x0 * x1 * x2) / ((x3 - x0) * (x3 - x1) * (x3 - x2))),
   y0 * (x1 * x2 + x1 * x3 + x2 * x3) / ((x0 - x1) * (x0 - x2) * (x0 - x3)) +
      y1 * (x0 * x2 + x0 * x3 + x2 * x3) / ((x1 - x0) * (x1 - x2) * (x1 - x3)) +
      y2 * (x0 * x1 + x0 * x3 + x1 * x3) / ((x2 - x0) * (x2 - x1) * (x2 - x3)) +
      y3 * (x0 * x1 + x0 * x2 + x1 * x2) / ((x3 - x0) * (x3 - x1) * (x3 - x2)),
   -(y0 * (x1 + x2 + x3) / ((x0 - x1) * (x0 - x2) * (x0 - x3)) +
      y1 * (x0 + x2 + x3) / ((x1 - x0) * (x1 - x2) * (x1 - x3)) +
      y2 * (x0 + x1 + x3) / ((x2 - x0) * (x2 - x1) * (x2 - x3)) +
      y3 * (x0 + x1 + x2) / ((x3 - x0) * (x3 - x1) * (x3 - x2))),
   y0 / ((x0 - x1) * (x0 - x2) * (x0 - x3)) + y1 / ((x1 - x0) * (x1 - x2) * (x1 - x3)) +
      y2 / ((x2 - x0) * (x2 - x1) * (x2 - x3)) + y3 / ((x3 - x0) * (x3 - x1) * (x3 - x2))]

/-- A fitted interpolant: knot abscissas together with one cubic
coefficient list per knot interval.

Modelled from the spec: the notebook builds interpolants with
`scipy.interpolate.InterpolatedUnivariateSpline` (an external library
whose construction code is not part of the repository), and the cells that
create the energy splines are fill-in placeholders.  Spec §3/§4.1 pin the
interpolant down to a piecewise degree-3 polynomial that passes through
every sample and supports exact symbolic differentiation, but leave the
boundary-condition choice open.  We fix the documented choice locally:
each interval `[x_i, x_{i+1}]` carries the Lagrange cubic through the four
consecutive samples `x_{i-1} … x_{i+2}` (clamped at the ends).  This
retains every property the claims rely on: linearity in the sampled data,
exact piecewise-polynomial differentiation, interpolation of the samples,
and exact reproduction of sampled polynomials of degree ≤ 3. -/
structure Interpolant where
  knots : List ℚ
  pieces : List (List ℚ)

/-- First sample index used by the cubic piece of interval `i` (of a grid
with `n` knots): `min (i-1) (n-4)`, i.e. the window `i-1 … i+2` clamped to
the grid. -/
def nodeBase (n i : ℕ) : ℕ := min (i - 1) (n - 4)

/-- The cubic piece of interval `i`, from parallel abscissa/ordinate
lists. -/
def pieceOf (xs ys : List ℚ) (i : ℕ) : List ℚ :=
  let j := nodeBase xs.length i
  lagrangeCubic (xs.getD j 0) (xs.getD (j+1) 0) (xs.getD (j+2) 0) (xs.getD (j+3) 0)
    (ys.getD j 0) (ys.getD (j+1) 0) (ys.getD (j+2) 0) (ys.getD (j+3) 0)

/-- All cubic pieces of the fit to parallel lists `xs`, `ys`: one per knot
interval. -/
def buildPieces (xs ys : List ℚ) : List (List ℚ) :=
  (List.range (xs.length - 1)).map (pieceOf xs ys)

/-- Fit an interpolant to parallel abscissa/ordinate lists, as the
notebook's `InterpolatedUnivariateSpline(x_array, y_array, k=3)` calls
do. -/
def mkInterpolant (xs ys : List ℚ) : Interpolant := ⟨xs, buildPieces xs ys⟩

/-- Index of the knot interval containing `r` (clamped to the first/last
interval outside the fitted domain, matching spline extrapolation by the
boundary pieces). -/
def intervalIdx (knots : List ℚ) (r : ℚ) : ℕ :=
  min ((knots.takeWhile (fun x => decide (x ≤ r))).length - 1) (knots.length - 2)

/-- Evaluate an interpolant: evaluate the cubic piece of the interval
containing `r`. -/
def evalI (s : Interpolant) (r : ℚ) : ℚ :=
  evalP (s.pieces.getD (intervalIdx s.knots r) []) r

/-- Exact derivative of an interpolant: differentiate every piece,
keeping the knots — the notebook's `.derivative()` calls. -/
def derivI (s : Interpolant) : Interpolant := ⟨s.knots, s.pieces.map derivP⟩

/-- Error kinds of the pipeline (spec §7). -/
inductive PESError
  | constructionError
  | degenerateSurfaceError
deriving DecidableEq

/-- Interpolant construction with input validation.

Modelled from the spec: validation lives inside the external spline
library; spec §4.1 requires `build` to fail with `ConstructionError` when
fewer than 4 distinct points are supplied or separations are not strictly
increasing, and to construct the interpolant otherwise. -/
def build (samples : List (ℚ × ℚ)) : Except PESError Interpolant :=
  if 4 ≤ samples.length ∧ (samples.map Prod.fst).Chain' (· < ·) then
    .ok (mkInterpolant (samples.map Prod.fst) (samples.map Prod.snd))
  else .error .constructionError

/-- Minimum of a list of rationals (`0` for the empty list, never used on
empty input by the pipeline). -/
def listMin : List ℚ → ℚ
  | [] => 0
  | [x] => x
  | x :: y :: ys => min x (listMin (y :: ys))

/-- Index of the first occurrence of the minimum, the documented semantics
of the notebook's `np.argmin` call (`numpy` is external; "in case of
multiple occurrences of the minimum values, the indices corresponding to
the first occurrence are returned"). -/
def argmin : List ℚ → ℕ
  | [] => 0
  | [_] => 0
  | x :: y :: ys => if x ≤ listMin (y :: ys) then 0 else argmin (y :: ys) + 1

/-- `numpy.linspace a b n`: `n` evenly spaced points from `a` to `b`
inclusive (external library, documented semantics:
`a + i·(b-a)/(n-1)`). -/
def linspace (a b : ℚ) (n : ℕ) : List ℚ :=
  (List.range n).map (fun (i : ℕ) => a + (b - a) * (i : ℚ) / ((n : ℚ) - 1))

/-- The dense evaluation grid of the notebook:
`np.linspace(0.5*1.89, 2.3*1.89, 200)`, i.e. 200 points from
`0.945` to `4.347` Bohr. -/
def r_array_fine_au : List ℚ := linspace (189/200) (4347/1000) 200

/-- Harmonic model potential.

Modelled from the spec: the cell creating `harmonic_potential_array` is a
fill-in placeholder; spec §8 gives the harmonic test surface
`E(r) = 0.5·k·(r - r0)²` (the notebook's plotted variant may add the
constant offset `V(r_eq)`, which changes no force; this definition
follows the spec's words). -/
def harmonic_potential (k req r : ℚ) : ℚ := 1/2 * k * (r - req)^2

/-- The notebook's
`negative_harmonic_potential_spline = InterpolatedUnivariateSpline(r_array_fine_au, -1 * harmonic_potential_array, k=3)`:
fit of the negated harmonic potential sampled on the dense grid. -/
def negative_harmonic_potential_spline (k req : ℚ) : Interpolant :=
  mkInterpolant r_array_fine_au
    (r_array_fine_au.map (fun r => -harmonic_potential k req r))

/-- The notebook's
`harmonic_force_spline = negative_harmonic_potential_spline.derivative()`. -/
def harmonic_force_spline (k req : ℚ) : Interpolant :=
  derivI (negative_harmonic_potential_spline k req)

/-- Harmonic-oscillator analytic trajectory.

Modelled from the spec: the body of `harmonic_position` in the notebook is
a fill-in placeholder; spec §4.3 gives the closed form
`r_eq + amplitude·sin(ω·t + phase)`. -/
noncomputable def harmonic_position (om amp phase req t : ℝ) : ℝ :=
  req + amp * Real.sin (om * t + phase)

/-- Equilibrium-state bundle of spec §3: equilibrium separation, minimum
energy, force constant, reduced mass, angular frequency and frequency. -/
structure EquilibriumState where
  r_eq : ℚ
  E_min : ℚ
  k : ℚ
  mu : ℚ
  omega : ℝ
  nu : ℝ

/-- The equilibrium separation the extractor locates: the grid point whose
interpolated energy is minimal (first occurrence). -/
def r_eqOf (s : Interpolant) (grid : List ℚ) : ℚ :=
  grid.getD (argmin (grid.map (evalI s))) 0

/-- The curvature (force constant) the extractor evaluates at the located
minimum: second derivative of the energy interpolant at the grid point of
minimum energy (first occurrence). -/
def curvatureAtMin (s : Interpolant) (grid : List ℚ) : ℚ :=
  evalI (derivI (derivI s)) (r_eqOf s grid)

/-- Physical-property extraction.

Modelled from the spec: the notebook cell computing `ccsd_k` and
`ccsd_nu` is a fill-in placeholder and the notebook has no error handling,
so the contract is taken from spec §4.2: evaluate the energy field on the
dense grid, take the grid point of minimum energy (first occurrence) as
`r_eq`, evaluate the curvature there to get `k`, compute the reduced mass
`μ = m1·m2/(m1+m2)`, and fail with `DegenerateSurfaceError` when `k ≤ 0`,
producing `ω = sqrt(k/μ)` and `ν = ω/(2π)` otherwise. -/
noncomputable def findEquilibrium (s : Interpolant) (grid : List ℚ) (m1 m2 : ℚ) :
    Except PESError EquilibriumState :=
  let req := r_eqOf s grid
  let k := curvatureAtMin s grid
  if 0 < k then
    let mu := m1 * m2 / (m1 + m2)
    let om := Real.sqrt ((k : ℝ) / (mu : ℝ))
    .ok ⟨req, evalI s req, k, mu, om, om / (2 * Real.pi)⟩
  else .error .degenerateSurfaceError

/-- State of the integration loop after `i` velocity-Verlet updates of the
initial state — the contents of slot `i` of the notebook's `r_vs_t` /
`v_vs_t` arrays. -/
def vvState (r0 v0 mu : ℚ) (F : ℚ → ℚ) (dt : ℚ) : ℕ → ℚ × ℚ
  | 0 => (r0, v0)
  | i + 1 =>
    let p := vvState r0 v0 mu F dt i
    velocity_verlet p.1 p.2 mu F dt

/-- The trajectory produced by the notebook's integration loop: slot 0
holds the initial state and slot `i` (for `1 ≤ i < n`) the velocity-Verlet
update of slot `i-1`. -/
def trajectory (r0 v0 mu : ℚ) (F : ℚ → ℚ) (dt : ℚ) (n : ℕ) : List (ℚ × ℚ) :=
  (List.range n).map (vvState r0 v0 mu F dt)

/-- The notebook's `t_array`: slot `i` holds `dt·i` (slot 0 stays at its
initialized value `0 = dt·0`). -/
def t_array (dt : ℚ) (n : ℕ) : List ℚ :=
  (List.range n).map (fun (i : ℕ) => dt * (i : ℚ))

/-- `argmin` returns an index inside the list. -/
theorem argmin_lt_length : ∀ (l : List ℚ), l ≠ [] → argmin l < l.length
  | [], h => absurd rfl h
  | [_], _ => by simp [argmin]
  | x :: y :: ys, _ => by
    rw [argmin]
    split
    · simp
    · have ih := argmin_lt_length (y :: ys) (by simp)
      simpa [Nat.succ_lt_succ_iff] using ih

/-- `listMin` bounds every element from below. -/
theorem listMin_le : ∀ (l : List ℚ) (j : ℕ), j < l.length → listMin l ≤ l.getD j 0
  | [], _, h => by simp at h
  | [x], 0, _ => by simp [listMin]
  | [x], j + 1, h => by simp at h
  | x :: y :: ys, 0, _ => by simp [listMin]
  | x :: y :: ys, j + 1, h => by
    have ih := listMin_le (y :: ys) j (by simpa using h)
    calc listMin (x :: y :: ys) ≤ listMin (y :: ys) := by rw [listMin]; exact min_le_right _ _
    _ ≤ (y :: ys).getD j 0 := ih
    _ = (x :: y :: ys).getD (j + 1) 0 := rfl

/-- The element at `argmin` is the minimum. -/
theorem getD_argmin : ∀ (l : List ℚ), l ≠ [] → l.getD (argmin l) 0 = listMin l
  | [], h => absurd rfl h
  | [_], _ => by simp [argmin, listMin]
  | x :: y :: ys, _ => by
    rw [argmin]
    split
    · rename_i hx
      rw [listMin]
      simp [min_eq_left hx]
    · rename_i hx
      have ih := getD_argmin (y :: ys) (by simp)
      rw [List.getD_cons_succ, ih, listMin]
      exact (min_eq_right (le_of_lt (lt_of_not_le hx))).symm

/-- Every element strictly before `argmin` is strictly above the
minimum. -/
theorem listMin_lt_of_lt_argmin :
    ∀ (l : List ℚ) (j : ℕ), j < argmin l → listMin l < l.getD j 0
  | [], j, h => by simp [argmin] at h
  | [_], j, h => by simp [argmin] at h
  | x :: y :: ys, j, h => by
    rw [argmin] at h
    split at h
    · omega
    · rename_i hx
      have hmx : listMin (y :: ys) < x := lt_of_not_le hx
      have hmin : listMin (x :: y :: ys) = listMin (y :: ys) := by
        rw [listMin]; exact min_eq_right (le_of_lt hmx)
      cases j with
      | zero => simpa [hmin] using hmx
      | succ j =>
        have ih := listMin_lt_of_lt_argmin (y :: ys) j (by omega)
        rw [hmin, List.getD_cons_succ]
        exact ih

/-- Fully applied form of one velocity-Verlet step. -/
theorem velocity_verlet_eval (r v mu : ℚ) (F : ℚ → ℚ) (dt : ℚ) :
    velocity_verlet r v mu F dt =
      (r + v * dt + 1/2 * (F r / mu) * dt^2,
       v + 1/2 * (F r / mu + F (r + v * dt + 1/2 * (F r / mu) * dt^2) / mu) * dt) := rfl

/-- `getD` through `map`, at an arbitrary pair of defaults, for in-range
indices. -/
theorem getD_map_lt {α β : Type} (f : α → β) (l : List α) (n : ℕ) (h : n < l.length)
    (da : α) (db : β) : (l.map f).getD n db = f (l.getD n da) := by
  rw [List.getD_eq_getElem (l.map f) db (by simpa using h), List.getD_eq_getElem l da h]
  simp

/-- `getD` through `map` when the function fixes the default. -/
theorem getD_map_default {α β : Type} (f : α → β) (l : List α) (n : ℕ)
    (da : α) (db : β) (hd : f da = db) : (l.map f).getD n db = f (l.getD n da) := by
  rw [← hd, List.getD_map]

/-- `getD` on a mapped range, for in-range indices. -/
theorem getD_range_map {α : Type} (f : ℕ → α) (n i : ℕ) (h : i < n) (d : α) :
    ((List.range n).map f).getD i d = f i := by
  rw [List.getD_eq_getElem _ d (by simpa using h)]
  simp

/-- Strictly sorted lists have strictly increasing `getD` values. -/
theorem getD_lt_getD_of_pairwise (xs : List ℚ) (h : xs.Pairwise (· < ·))
    (i j : ℕ) (hij : i < j) (hj : j < xs.length) : xs.getD i 0 < xs.getD j 0 := by
  have hi : i < xs.length := lt_trans hij hj
  rw [List.getD_eq_getElem xs 0 hi, List.getD_eq_getElem xs 0 hj]
  exact List.pairwise_iff_get.mp h ⟨i, hi⟩ ⟨j, hj⟩ hij

/-- Evaluating a negated coefficient list negates the value. -/
theorem evalP_map_neg (p : List ℚ) (x : ℚ) :
    evalP (p.map (fun c => -c)) x = -evalP p x := by
  induction p with
  | nil => simp [evalP]
  | cons c cs ih => simp [evalP, ih]; ring

/-- `derivPAux` commutes with coefficientwise negation. -/
theorem derivPAux_map_neg (p : List ℚ) (k : ℕ) :
    derivPAux (p.map (fun c => -c)) k = (derivPAux p k).map (fun c => -c) := by
  induction p generalizing k with
  | nil => simp [derivPAux]
  | cons c cs ih => simp [derivPAux, ih]

/-- Exact differentiation commutes with coefficientwise negation. -/
theorem derivP_map_neg (p : List ℚ) :
    derivP (p.map (fun c => -c)) = (derivP p).map (fun c => -c) := by
  unfold derivP
  rw [← List.map_drop, derivPAux_map_neg]

/-- The Lagrange cubic is odd in the sampled ordinates. -/
theorem lagrangeCubic_neg (x0 x1 x2 x3 y0 y1 y2 y3 : ℚ) :
    lagrangeCubic x0 x1 x2 x3 (-y0) (-y1) (-y2) (-y3) =
      (lagrangeCubic x0 x1 x2 x3 y0 y1 y2 y3).map (fun c => -c) := by
  simp only [lagrangeCubic, List.map_cons, List.map_nil, List.cons.injEq, and_true]
  refine ⟨by ring, by ring, by ring, by ring⟩

/-- `getD` at default `0` through a negating `map`. -/
theorem getD_map_neg (l : List ℚ) (n : ℕ) :
    (l.map (fun y => -y)).getD n 0 = -(l.getD n 0) :=
  getD_map_default _ l n 0 0 neg_zero

/-- Each cubic piece is odd in the sampled ordinates. -/
theorem pieceOf_map_neg (xs ys : List ℚ) (i : ℕ) :
    pieceOf xs (ys.map (fun y => -y)) i = (pieceOf xs ys i).map (fun c => -c) := by
  unfold pieceOf
  simp only [getD_map_neg, lagrangeCubic_neg]

/-- Fitting the negated data negates every piece. -/
theorem buildPieces_map_neg (xs ys : List ℚ) :
    buildPieces xs (ys.map (fun y => -y)) =
      (buildPieces xs ys).map (List.map (fun c => -c)) := by
  unfold buildPieces
  rw [List.map_map]
  exact List.map_congr_left (fun i _ => pieceOf_map_neg xs ys i)

/-- Evaluating the exact derivative of a fit reduces to the derivative of
the piece containing `r`. -/
theorem evalI_derivI_mk (xs ys : List ℚ) (r : ℚ) :
    evalI (derivI (mkInterpolant xs ys)) r =
      evalP (derivP ((buildPieces xs ys).getD (intervalIdx xs r) [])) r := by
  unfold evalI derivI mkInterpolant
  simp only
  rw [getD_map_default derivP (buildPieces xs ys) _ [] [] rfl]

/-- Length of `linspace`. -/
theorem linspace_length (a b : ℚ) (n : ℕ) : (linspace a b n).length = n := by
  simp [linspace]

/-- Entries of `linspace`. -/
theorem linspace_getD (a b : ℚ) (n i : ℕ) (h : i < n) :
    (linspace a b n).getD i 0 = a + (b - a) * i / ((n : ℚ) - 1) := by
  unfold linspace
  exact getD_range_map _ n i h 0

/-- `linspace a b n` is strictly increasing when `a < b`. -/
theorem linspace_pairwise (a b : ℚ) (hab : a < b) (n : ℕ) :
    (linspace a b n).Pairwise (· < ·) := by
  unfold linspace
  rw [List.pairwise_map]
  refine List.Pairwise.imp_of_mem ?_ (List.pairwise_lt_range n)
  intro i j hi hj hij
  have hj' : j < n := List.mem_range.mp hj
  have h2 : 2 ≤ n := by omega
  have hn1 : (0 : ℚ) < (n : ℚ) - 1 := by
    have : (2 : ℚ) ≤ (n : ℚ) := by exact_mod_cast h2
    linarith
  have hcast : (i : ℚ) < (j : ℚ) := by exact_mod_cast hij
  have hba : (0 : ℚ) < b - a := sub_pos.mpr hab
  have hmul : (b - a) * (i : ℚ) < (b - a) * (j : ℚ) :=
    mul_lt_mul_of_pos_left hcast hba
  have := div_lt_div_of_pos_right hmul hn1
  exact add_lt_add_left this a

/-- Every entry of `linspace a b n` lies in `[a, b]` when `a ≤ b`. -/
theorem linspace_mem_bounds (a b : ℚ) (n : ℕ) (hab : a ≤ b) (x : ℚ)
    (hx : x ∈ linspace a b n) : a ≤ x ∧ x ≤ b := by
  unfold linspace at hx
  obtain ⟨i, hi, rfl⟩ := List.mem_map.mp hx
  have hi' : i < n := List.mem_range.mp hi
  by_cases h1 : n ≤ 1
  · have hi0 : i = 0 := by omega
    subst hi0
    constructor
    · simp
    · simpa using hab
  · have h2 : 2 ≤ n := by omega
    have hn1 : (0 : ℚ) < (n : ℚ) - 1 := by
      have : (2 : ℚ) ≤ (n : ℚ) := by exact_mod_cast h2
      linarith
    have hi2 : (i : ℚ) ≤ (n : ℚ) - 1 := by
      have : (i : ℚ) + 1 ≤ (n : ℚ) := by exact_mod_cast hi'
      linarith
    have hterm0 : 0 ≤ (b - a) * (i : ℚ) / ((n : ℚ) - 1) :=
      div_nonneg (mul_nonneg (by linarith) (by positivity)) (le_of_lt hn1)
    have hterm1 : (b - a) * (i : ℚ) / ((n : ℚ) - 1) ≤ b - a := by
      rw [div_le_iff₀ hn1]
      calc (b - a) * (i : ℚ) ≤ (b - a) * ((n : ℚ) - 1) :=
            mul_le_mul_of_nonneg_left hi2 (by linarith)
      _ = (b - a) * ((n : ℚ) - 1) := rfl
    constructor <;> linarith


set_option maxHeartbeats 1000000 in
/-- The Lagrange cubic through four distinct nodes sampled from a
quadratic reproduces that quadratic, coefficient by coefficient. -/
theorem lagrangeCubic_quadratic (x0 x1 x2 x3 qa qb qc : ℚ)
    (h01 : x0 ≠ x1) (h02 : x0 ≠ x2) (h03 : x0 ≠ x3)
    (h12 : x1 ≠ x2) (h13 : x1 ≠ x3) (h23 : x2 ≠ x3) :
    lagrangeCubic x0 x1 x2 x3
      (qc + qb * x0 + qa * x0^2) (qc + qb * x1 + qa * x1^2)
      (qc + qb * x2 + qa * x2^2) (qc + qb * x3 + qa * x3^2) = [qc, qb, qa, 0] := by
  have n01 : x0 - x1 ≠ 0 := sub_ne_zero.mpr h01
  have n02 : x0 - x2 ≠ 0 := sub_ne_zero.mpr h02
  have n03 : x0 - x3 ≠ 0 := sub_ne_zero.mpr h03
  have n10 : x1 - x0 ≠ 0 := sub_ne_zero.mpr h01.symm
  have n12 : x1 - x2 ≠ 0 := sub_ne_zero.mpr h12
  have n13 : x1 - x3 ≠ 0 := sub_ne_zero.mpr h13
  have n20 : x2 - x0 ≠ 0 := sub_ne_zero.mpr h02.symm
  have n21 : x2 - x1 ≠ 0 := sub_ne_zero.mpr h12.symm
  have n23 : x2 - x3 ≠ 0 := sub_ne_zero.mpr h23
  have n30 : x3 - x0 ≠ 0 := sub_ne_zero.mpr h03.symm
  have n31 : x3 - x1 ≠ 0 := sub_ne_zero.mpr h13.symm
  have n32 : x3 - x2 ≠ 0 := sub_ne_zero.mpr h23.symm
  simp only [lagrangeCubic, List.cons.injEq, and_true]
  refine ⟨?_, ?_, ?_, ?_⟩ <;> (field_simp; ring)

/-- Every cubic piece of a fit to quadratic data on a strictly increasing
grid of at least 4 points carries exactly the quadratic's
coefficients. -/
theorem pieceOf_quadratic (xs : List ℚ) (hs : xs.Pairwise (· < ·))
    (h4 : 4 ≤ xs.length) (qa qb qc : ℚ) (i : ℕ) :
    pieceOf xs (xs.map (fun x => qc + qb * x + qa * x^2)) i = [qc, qb, qa, 0] := by
  unfold pieceOf
  dsimp only
  set j := nodeBase xs.length i with hj
  have hjle : j ≤ xs.length - 4 := min_le_right _ _
  have hb0 : j < xs.length := by omega
  have hb1 : j + 1 < xs.length := by omega
  have hb2 : j + 2 < xs.length := by omega
  have hb3 : j + 3 < xs.length := by omega
  rw [getD_map_lt _ xs j hb0 0 0, getD_map_lt _ xs (j+1) hb1 0 0,
    getD_map_lt _ xs (j+2) hb2 0 0, getD_map_lt _ xs (j+3) hb3 0 0]
  have l01 := getD_lt_getD_of_pairwise xs hs j (j+1) (by omega) hb1
  have l02 := getD_lt_getD_of_pairwise xs hs j (j+2) (by omega) hb2
  have l03 := getD_lt_getD_of_pairwise xs hs j (j+3) (by omega) hb3
  have l12 := getD_lt_getD_of_pairwise xs hs (j+1) (j+2) (by omega) hb2
  have l13 := getD_lt_getD_of_pairwise xs hs (j+1) (j+3) (by omega) hb3
  have l23 := getD_lt_getD_of_pairwise xs hs (j+2) (j+3) (by omega) hb3
  exact lagrangeCubic_quadratic _ _ _ _ qa qb qc (ne_of_lt l01) (ne_of_lt l02)
    (ne_of_lt l03) (ne_of_lt l12) (ne_of_lt l13) (ne_of_lt l23)

/-- Claim C1: for every state `(r_curr, v_curr)`, reduced mass `μ > 0`, force
field `F` and time step `dt`, one velocity-Verlet step returns exactly
`(r_new, v_new)` computed in this order: `a_curr = F r_curr / μ`;
`r_new = r_curr + v_curr·dt + 0.5·a_curr·dt²`; `a_new = F r_new / μ`;
`v_new = v_curr + 0.5·(a_curr + a_new)·dt`.  Stated for every `μ`, which
subsumes `μ > 0`. -/
theorem velocity_verlet_step_exact (r_curr v_curr mu : ℚ) (F : ℚ → ℚ) (dt : ℚ) :
    velocity_verlet r_curr v_curr mu F dt =
      (let a_curr := F r_curr / mu
       let r_new := r_curr + v_curr * dt + 1/2 * a_curr * dt^2
       let a_new := F r_new / mu
       let v_new := v_curr + 1/2 * (a_curr + a_new) * dt
       (r_new, v_new)) := rfl

/-- Claim C2: the velocity-Verlet step is symmetric under time reversal: for
every position-dependent force field `F`, mass `μ` (in particular every
`μ > 0`), time step `dt` and state `(r, v)`, if `step (r, v) = (r', v')`
then `step (r', -v') = (r, -v)`. -/
theorem velocity_verlet_time_reversal (F : ℚ → ℚ) (mu dt r v : ℚ) :
    velocity_verlet (velocity_verlet r v mu F dt).1 (-(velocity_verlet r v mu F dt).2)
      mu F dt = (r, -v) := by
  rw [velocity_verlet_eval r v mu F dt]
  rw [velocity_verlet_eval]
  have harg :
      r + v * dt + 1/2 * (F r / mu) * dt^2 +
          -(v + 1/2 * (F r / mu + F (r + v * dt + 1/2 * (F r / mu) * dt^2) / mu) * dt) * dt +
          1/2 * (F (r + v * dt + 1/2 * (F r / mu) * dt^2) / mu) * dt^2 = r := by
    ring
  rw [harg]
  rw [Prod.mk.injEq]
  constructor
  · rfl
  · ring

/-- Claim C3: for every r in the fitted domain (indeed for every r), the
force field obtained by fitting the negated energies and differentiating
once — the notebook's `ccsd_force_spline` and `harmonic_force_spline` —
equals the negative of the first derivative of the energy fit — the
notebook's `ccsd_energy_first_derivative_spline` — at r:
`force(r) = -energyDerivative(r)`. -/
theorem force_spline_eq_neg_energy_derivative (xs ys : List ℚ) (r : ℚ) :
    evalI (derivI (mkInterpolant xs (ys.map (fun y => -y)))) r =
      -evalI (derivI (mkInterpolant xs ys)) r := by
  rw [evalI_derivI_mk, evalI_derivI_mk, buildPieces_map_neg]
  rw [getD_map_default (List.map (fun c => -c)) (buildPieces xs ys) _ [] [] rfl]
  rw [derivP_map_neg, evalP_map_neg]

/-- Claim C4: the equilibrium search (`np.argmin` on the densely evaluated
energies) returns the index `i` of the first occurrence of the minimal
energy: `i` is in range, `E[i] ≤ E[j]` for all `j`, and `E[i] < E[j]`
(i.e. `E[j] > E[i]`) for all `j < i`. -/
theorem argmin_first_minimum (E : List ℚ) (hE : E ≠ []) :
    argmin E < E.length ∧
    (∀ j, j < E.length → E.getD (argmin E) 0 ≤ E.getD j 0) ∧
    (∀ j, j < argmin E → E.getD (argmin E) 0 < E.getD j 0) := by
  refine ⟨argmin_lt_length E hE, ?_, ?_⟩
  · intro j hj
    rw [getD_argmin E hE]
    exact listMin_le E j hj
  · intro j hj
    rw [getD_argmin E hE]
    exact listMin_lt_of_lt_argmin E j hj

/-- Witness for C4 at the concrete energy array `[2, 1, 1, 3]` (whose
minimum `1` occurs twice, at indices 1 and 2). -/
theorem argmin_first_minimum_witness :
    (([2, 1, 1, 3] : List ℚ) ≠ []) ∧
    (argmin ([2, 1, 1, 3] : List ℚ) < ([2, 1, 1, 3] : List ℚ).length ∧
     (∀ j, j < ([2, 1, 1, 3] : List ℚ).length →
       ([2, 1, 1, 3] : List ℚ).getD (argmin ([2, 1, 1, 3] : List ℚ)) 0 ≤
         ([2, 1, 1, 3] : List ℚ).getD j 0) ∧
     (∀ j, j < argmin ([2, 1, 1, 3] : List ℚ) →
       ([2, 1, 1, 3] : List ℚ).getD (argmin ([2, 1, 1, 3] : List ℚ)) 0 <
         ([2, 1, 1, 3] : List ℚ).getD j 0)) :=
  ⟨by simp, argmin_first_minimum [2, 1, 1, 3] (by simp)⟩

/-- Claim C5: equilibrium extraction fails with `DegenerateSurfaceError`
exactly when the curvature `k` at the located minimum satisfies `k ≤ 0`
(so no frequency is produced downstream), and a frequency is produced
(the result is `ok`, carrying `ω` and `ν`) if and only if `k > 0`. -/
theorem findEquilibrium_degenerate_iff (s : Interpolant) (grid : List ℚ) (m1 m2 : ℚ) :
    (findEquilibrium s grid m1 m2 = .error .degenerateSurfaceError ↔
      curvatureAtMin s grid ≤ 0) ∧
    ((findEquilibrium s grid m1 m2).isOk = true ↔ 0 < curvatureAtMin s grid) := by
  by_cases h : 0 < curvatureAtMin s grid
  · simp [findEquilibrium, h, Except.isOk, Except.toBool, not_le]
  · have h' := not_lt.mp h
    simp [findEquilibrium, h, Except.isOk, Except.toBool, h']

/-- Claim C6: interpolant construction fails with `ConstructionError`
exactly when fewer than 4 points are supplied or the separations are not
strictly increasing (under strict increase all points are distinct, so
"4 distinct points" and "4 points" coincide); with at least 4 strictly
increasing separations it succeeds. -/
theorem build_construction_iff (samples : List (ℚ × ℚ)) :
    ((build samples).isOk = true ↔
      4 ≤ samples.length ∧ (samples.map Prod.fst).Chain' (· < ·)) ∧
    (build samples = .error .constructionError ↔
      ¬(4 ≤ samples.length ∧ (samples.map Prod.fst).Chain' (· < ·))) := by
  by_cases h : 4 ≤ samples.length ∧ (samples.map Prod.fst).Chain' (· < ·) <;>
    simp [build, h, Except.isOk, Except.toBool]

/-- Claim C7: the trajectory driver produces exactly `nSteps` states; the
state at index 0 is the supplied initial state, the state at every index
`i ≥ 1` is the velocity-Verlet step applied to the state at index `i-1`,
and the time value at index `i` is `i·dt`. -/
theorem trajectory_driver_spec (r0 v0 mu : ℚ) (F : ℚ → ℚ) (dt : ℚ) (n : ℕ)
    (hn : 1 ≤ n) :
    (trajectory r0 v0 mu F dt n).length = n ∧
    (trajectory r0 v0 mu F dt n).getD 0 (0, 0) = (r0, v0) ∧
    (∀ i, 1 ≤ i → i < n →
      (trajectory r0 v0 mu F dt n).getD i (0, 0) =
        velocity_verlet ((trajectory r0 v0 mu F dt n).getD (i - 1) (0, 0)).1
          ((trajectory r0 v0 mu F dt n).getD (i - 1) (0, 0)).2 mu F dt) ∧
    (∀ i, i < n → (t_array dt n).getD i 0 = dt * i) := by
  have tg : ∀ i, i < n →
      (trajectory r0 v0 mu F dt n).getD i (0, 0) = vvState r0 v0 mu F dt i := by
    intro i h
    unfold trajectory
    exact getD_range_map _ n i h (0, 0)
  refine ⟨by simp [trajectory], ?_, ?_, ?_⟩
  · rw [tg 0 (by omega)]
    rfl
  · intro i h1 h2
    obtain ⟨j, rfl⟩ : ∃ j, i = j + 1 := ⟨i - 1, by omega⟩
    rw [tg (j + 1) h2, Nat.add_sub_cancel, tg j (by omega)]
    simp [vvState]
  · intro i h
    unfold t_array
    exact getD_range_map _ n i h 0

/-- Witness for C7: a two-step trajectory under the zero force field from
state `(0, 1)` with `μ = 1`, `dt = 1`. -/
theorem trajectory_driver_spec_witness :
    1 ≤ 2 ∧
    ((trajectory 0 1 1 (fun _ => 0) 1 2).length = 2 ∧
     (trajectory 0 1 1 (fun _ => 0) 1 2).getD 0 (0, 0) = (0, 1) ∧
     (∀ i, 1 ≤ i → i < 2 →
       (trajectory 0 1 1 (fun _ => 0) 1 2).getD i (0, 0) =
         velocity_verlet ((trajectory 0 1 1 (fun _ => 0) 1 2).getD (i - 1) (0, 0)).1
           ((trajectory 0 1 1 (fun _ => 0) 1 2).getD (i - 1) (0, 0)).2 1 (fun _ => 0) 1) ∧
     (∀ i, i < 2 → (t_array 1 2).getD i 0 = 1 * i)) :=
  ⟨by norm_num, trajectory_driver_spec 0 1 1 (fun _ => 0) 1 2 (by norm_num)⟩

/-- Claim C8: the harmonic reference model returns exactly
`r_eq + amplitude·sin(ω·t + phase)`, a pure function of its arguments. -/
theorem harmonic_position_closed_form (om amp phase req t : ℝ) :
    harmonic_position om amp phase req t = req + amp * Real.sin (om * t + phase) := rfl

/-- Claim C9: the harmonic force field handed to the integrator is built by
fitting a cubic interpolant to the negated harmonic potential sampled on
the 200-point dense grid and differentiating the fit (see
`negative_harmonic_potential_spline` / `harmonic_force_spline`), and in
exact arithmetic it coincides with the closed-form harmonic force
`-k·(r - r_eq)` at every `r` of the fitted domain, because a degree-3
interpolating piece reproduces degree-2 data exactly. -/
theorem harmonic_force_spline_closed_form (k req r : ℚ)
    (h1 : 189/200 ≤ r) (h2 : r ≤ 4347/1000) :
    evalI (harmonic_force_spline k req) r = -k * (r - req) := by
  unfold harmonic_force_spline negative_harmonic_potential_spline
  have hdata : r_array_fine_au.map (fun r => -harmonic_potential k req r) =
      r_array_fine_au.map
        (fun x => (-(1/2 * k * req^2)) + (k * req) * x + (-(1/2 * k)) * x^2) := by
    apply List.map_congr_left
    intro x _
    unfold harmonic_potential
    ring
  rw [hdata, evalI_derivI_mk]
  have hlen : r_array_fine_au.length = 200 := by
    unfold r_array_fine_au
    exact linspace_length _ _ _
  have hpair : r_array_fine_au.Pairwise (· < ·) := by
    unfold r_array_fine_au
    exact linspace_pairwise _ _ (by norm_num) 200
  have hmin : min ((r_array_fine_au.takeWhile (fun x => decide (x ≤ r))).length - 1)
      (r_array_fine_au.length - 2) ≤ r_array_fine_au.length - 2 := min_le_right _ _
  have hidx : intervalIdx r_array_fine_au r < r_array_fine_au.length - 1 := by
    unfold intervalIdx
    omega
  unfold buildPieces
  rw [getD_range_map _ _ _ hidx []]
  rw [pieceOf_quadratic r_array_fine_au hpair (by omega) _ _ _ _]
  simp only [derivP, derivPAux, List.drop_succ_cons, List.drop_zero, evalP]
  push_cast
  ring

/-- Witness for C9 at `k = 1`, `r_eq = 0`, `r = 1` (inside the fitted
domain `[0.945, 4.347]`). -/
theorem harmonic_force_spline_closed_form_witness :
    (189/200 : ℚ) ≤ 1 ∧ (1 : ℚ) ≤ 4347/1000 ∧
    evalI (harmonic_force_spline 1 0) 1 = -1 * (1 - 0) :=
  ⟨by norm_num, by norm_num,
    harmonic_force_spline_closed_form 1 0 1 (by norm_num) (by norm_num)⟩

/-- Claim C10: for every energy array of the dense grid's length, the
located equilibrium separation is an element of the dense grid
`linspace(0.5·1.89, 2.3·1.89, 200)` and lies inside the fitted domain
`[0.5·1.89, 2.3·1.89] = [0.945, 4.347]`, so the curvature evaluation at
`r_eq` never extrapolates. -/
theorem r_eq_within_fitted_domain (E : List ℚ) (hE : E.length = 200) :
    r_array_fine_au.getD (argmin E) 0 ∈ r_array_fine_au ∧
    189/200 ≤ r_array_fine_au.getD (argmin E) 0 ∧
    r_array_fine_au.getD (argmin E) 0 ≤ 4347/1000 := by
  have hlen : r_array_fine_au.length = 200 := by
    unfold r_array_fine_au
    exact linspace_length _ _ _
  have hEne : E ≠ [] := by
    intro h
    rw [h] at hE
    simp at hE
  have hidx : argmin E < r_array_fine_au.length := by
    rw [hlen, ← hE]
    exact argmin_lt_length E hEne
  have hmem : r_array_fine_au.getD (argmin E) 0 ∈ r_array_fine_au := by
    rw [List.getD_eq_getElem _ 0 hidx]
    exact List.getElem_mem hidx
  have hmem' : r_array_fine_au.getD (argmin E) 0 ∈ linspace (189/200) (4347/1000) 200 := hmem
  have hbounds :=
    linspace_mem_bounds (189/200) (4347/1000) 200 (by norm_num) _ hmem'
  exact ⟨hmem, hbounds.1, hbounds.2⟩

/-- Witness for C10 at the constant energy array of 200 zeros. -/
theorem r_eq_within_fitted_domain_witness :
    (List.replicate 200 (0 : ℚ)).length = 200 ∧
    (r_array_fine_au.getD (argmin (List.replicate 200 (0 : ℚ))) 0 ∈ r_array_fine_au ∧
     189/200 ≤ r_array_fine_au.getD (argmin (List.replicate 200 (0 : ℚ))) 0 ∧
     r_array_fine_au.getD (argmin (List.replicate 200 (0 : ℚ))) 0 ≤ 4347/1000) :=
  ⟨by rw [List.length_replicate], r_eq_within_fitted_domain (List.replicate 200 (0 : ℚ))
    (by rw [List.length_replicate])⟩

end SoMuchPotential
